import Mathlib

/-!
Shallow embedding of `LocalStorageVec<T, N>` from
`src/2-foundations-of-rust/4-traits-and-generics/1-local-storage-vec/src/lib.rs`.

The Rust enum has two variants: `Stack { buf: [T; N], len: usize }` and
`Heap(Vec<T>)`.  We model `[T; N]` as a `List α` together with the
well-formedness fact that its length is `N`, and `Vec<T>` as a `List α`.
The const generic `N` is passed explicitly to the operations that read it.

Panics are modelled explicitly: an indexing operation `buf[i]` panics when
`i` is out of the physical bounds of the slice, and `a - b` on `usize`
panics (debug overflow check; in release it wraps to a huge index that is
then out of bounds) when `b > a`.  Mutating operations that can panic
return `Except (LSV α) (LSV α)`: `.ok s` is normal completion with final
state `s`, `.error s` is a panic that leaves the `&mut self` receiver in
the partially mutated state `s` (observable after catching the unwind).
-/

namespace LocalStorageVecSpec

/-- The two variants of `LocalStorageVec<T, N>`: `Stack buf len` models
`Stack { buf, len }` (with `buf.length = N` for well-formed values) and
`Heap v` models `Heap(Vec<T>)`. -/
inductive LSV (α : Type) where
  | Stack : List α → Nat → LSV α
  | Heap : List α → LSV α
  deriving DecidableEq

/-- Checked `usize` subtraction: `a - b` panics (`none`) when `b > a`. -/
def subChecked (a b : Nat) : Option Nat :=
  if b ≤ a then some (a - b) else none

/-- Checked slice read `l[i]`: panics (`none`) when `i ≥ l.len()`. -/
def getChecked {α : Type} (l : List α) (i : Nat) : Option α :=
  if h : i < l.length then some (l.get ⟨i, h⟩) else none

/-- Checked slice write `l[i] = x`: panics (`none`) when `i ≥ l.len()`. -/
def setChecked {α : Type} (l : List α) (i : Nat) (x : α) : Option (List α) :=
  if i < l.length then some (l.set i x) else none

/-- Checked subslice `&l[s..e]`: panics (`none`) when `s > e` or
`e > l.len()`. -/
def sliceRange {α : Type} (l : List α) (s e : Nat) : Option (List α) :=
  if s ≤ e ∧ e ≤ l.length then some ((l.take e).drop s) else none

/-- `Vec::insert(i, x)`: panics (`none`) when `i > len`, otherwise inserts
`x` at position `i`, shifting the tail. -/
def vecInsert {α : Type} (v : List α) (i : Nat) (x : α) : Option (List α) :=
  if i ≤ v.length then some (v.take i ++ x :: v.drop i) else none

/-- `Vec::remove(i)`: panics (`none`) when `i ≥ len`, otherwise removes and
returns the element at `i`, shifting the tail toward the head. -/
def vecRemove {α : Type} (v : List α) (i : Nat) : Option (α × List α) :=
  if h : i < v.length then some (v.get ⟨i, h⟩, v.take i ++ v.drop (i + 1)) else none

/-- `LocalStorageVec::new()`: `Stack` with all `N` slots default-initialized
(`[(); N].map(|_| Default::default())`) and `len = 0`.  `dflt` is the
`Default::default()` value of the element type. -/
def new {α : Type} (N : Nat) (dflt : α) : LSV α :=
  .Stack (List.replicate N dflt) 0

/-- The buffer built by `[(); M].map(|_| it.next().unwrap_or_default())` in
the `From<[T; N]>` impl: the first slots come from the source array's
iterator, the rest are `Default::default()`. -/
def fillFromIter {α : Type} (dflt : α) : Nat → List α → List α
  | 0, _ => []
  | m + 1, [] => dflt :: fillFromIter dflt m []
  | m + 1, x :: xs => x :: fillFromIter dflt m xs

/-- `impl From<[T; N]> for LocalStorageVec<T, M>`: if the array (here
`arr`, of length `K = arr.length`) fits (`K ≤ M`) build `Stack` with the
elements copied into the leading slots and `len = K`; otherwise move it to
the heap. -/
def fromArray {α : Type} (M : Nat) (dflt : α) (arr : List α) : LSV α :=
  if arr.length ≤ M then .Stack (fillFromIter dflt M arr) arr.length
  else .Heap arr

/-- `impl From<Vec<T>> for LocalStorageVec<T, M>`: always `Heap`. -/
def fromVec {α : Type} (v : List α) : LSV α :=
  .Heap v

/-- `as_ref()`: `&buf[..len]` on `Stack`, the whole vector on `Heap`. -/
def as_ref {α : Type} : LSV α → List α
  | .Stack buf len => buf.take len
  | .Heap v => v

/-- `len()`: the logical length. -/
def len {α : Type} : LSV α → Nat
  | .Stack _ l => l
  | .Heap v => v.length

/-- `true` iff the container is in the `Stack` (inline) variant. -/
def isStack {α : Type} : LSV α → Bool
  | .Stack _ _ => true
  | .Heap _ => false

/-- `true` iff the container is in the `Heap` (spilled) variant. -/
def isHeap {α : Type} : LSV α → Bool
  | .Stack _ _ => false
  | .Heap _ => true

/-- `push(value)`: on `Stack` with `len < N` write into slot `len` and bump
`len`; on a full `Stack` first `*self = Heap(buf.clone().to_vec())` and
re-dispatch, which appends to the heap vector; on `Heap` append. -/
def push {α : Type} (N : Nat) (value : α) : LSV α → LSV α
  | .Stack buf l =>
      if l < N then .Stack (buf.set l value) (l + 1)
      else .Heap (buf ++ [value])
  | .Heap v => .Heap (v ++ [value])

/-- `pop()`: on `Stack`, `None` when `len == 0`, else decrement `len` and
return a clone of `buf[len]` (the read is in bounds for well-formed
states, hence the `Option`-valued lookup is `some` there); on `Heap`,
`Vec::pop`. -/
def pop {α : Type} : LSV α → Option α × LSV α
  | .Stack buf l =>
      if l = 0 then (none, .Stack buf l)
      else (buf.get? (l - 1), .Stack buf (l - 1))
  | .Heap v => (v.getLast?, .Heap v.dropLast)

/-- The shift loop of `insert` on `Stack`:
`for i in (index..len1).rev() { buf[i] = buf[i - 1]; }` applied to the
descending list of loop indices.  Each iteration computes `i - 1`
(panicking on `usize` underflow when `i = 0`), reads `buf[i - 1]` and
writes `buf[i]`, each with its bounds check.  On panic the buffer as
mutated so far is returned in `.error`. -/
def insertLoopAux {α : Type} (buf : List α) : List Nat → Except (List α) (List α)
  | [] => .ok buf
  | i :: rest =>
      match subChecked i 1 with
      | none => .error buf
      | some j =>
          match getChecked buf j with
          | none => .error buf
          | some x =>
              match setChecked buf i x with
              | none => .error buf
              | some buf1 => insertLoopAux buf1 rest

/-- The loop indices `index..len1` traversed in reverse. -/
def insertLoop {α : Type} (buf : List α) (index len1 : Nat) : Except (List α) (List α) :=
  insertLoopAux buf (List.range' index (len1 - index)).reverse

/-- `insert(index, value)`: on `Stack` with `len < N`, first `*len += 1`,
then the backward shift loop, then `buf[index] = value`; a panic in the
loop or the final write leaves the incremented `len` behind.  On a full
`Stack`, `*self = Heap(buf.clone().to_vec())` and re-dispatch, i.e.
`Vec::insert` on the spilled contents.  On `Heap`, `Vec::insert`. -/
def insert {α : Type} (N index : Nat) (value : α) : LSV α → Except (LSV α) (LSV α)
  | .Stack buf l =>
      if l < N then
        match insertLoop buf index (l + 1) with
        | .error buf1 => .error (.Stack buf1 (l + 1))
        | .ok buf1 =>
            match setChecked buf1 index value with
            | none => .error (.Stack buf1 (l + 1))
            | some buf2 => .ok (.Stack buf2 (l + 1))
      else
        match vecInsert buf index value with
        | none => .error (.Heap buf)
        | some w => .ok (.Heap w)
  | .Heap v =>
      match vecInsert v index value with
      | none => .error (.Heap v)
      | some w => .ok (.Heap w)

/-- The shift loop of `remove` on `Stack`:
`for i in index..stop { buf[i] = buf[i + 1]; }`. -/
def removeLoopAux {α : Type} (buf : List α) : List Nat → Except (List α) (List α)
  | [] => .ok buf
  | i :: rest =>
      match getChecked buf (i + 1) with
      | none => .error buf
      | some x =>
          match setChecked buf i x with
          | none => .error buf
          | some buf1 => removeLoopAux buf1 rest

/-- `remove(index)`: on `Stack`, clone `buf[index]` (bounds-checked against
the physical buffer, i.e. against `N`, not against `len`), compute the
range bound `*len - 1` (panicking on underflow when `len = 0`), run the
forward shift loop, decrement `len`, and return the clone.  On `Heap`,
`Vec::remove`. -/
def remove {α : Type} (index : Nat) : LSV α → Except (LSV α) (α × LSV α)
  | .Stack buf l =>
      match getChecked buf index with
      | none => .error (.Stack buf l)
      | some value =>
          match subChecked l 1 with
          | none => .error (.Stack buf l)
          | some stop =>
              match removeLoopAux buf (List.range' index (stop - index)) with
              | .error buf1 => .error (.Stack buf1 l)
              | .ok buf1 => .ok (value, .Stack buf1 (l - 1))
  | .Heap v =>
      match vecRemove v index with
      | none => .error (.Heap v)
      | some r => .ok (r.1, .Heap r.2)

/-- `clear()`: on `Stack` reset `len` to 0 (slot contents untouched); on
`Heap`, `Vec::clear`. -/
def clear {α : Type} : LSV α → LSV α
  | .Stack buf _ => .Stack buf 0
  | .Heap _ => .Heap []

/-- `impl Index<usize>`: `&buf[index]` on `Stack` (bounds-checked against
the physical buffer length `N`, not against `len`), `&v[index]` on
`Heap`. -/
def indexUsize {α : Type} : LSV α → Nat → Option α
  | .Stack buf _, i => getChecked buf i
  | .Heap v, i => getChecked v i

/-- `impl Index<RangeTo<usize>>`: `&buf[..end]` on `Stack` (checked against
`N`), `&v[..end]` on `Heap`. -/
def indexRangeTo {α : Type} : LSV α → Nat → Option (List α)
  | .Stack buf _, e => sliceRange buf 0 e
  | .Heap v, e => sliceRange v 0 e

/-- `impl Index<Range<usize>>`: `&buf[start..end]` on `Stack` (checked
against `N`), `&v[start..end]` on `Heap`. -/
def indexRange {α : Type} : LSV α → Nat → Nat → Option (List α)
  | .Stack buf _, s, e => sliceRange buf s e
  | .Heap v, s, e => sliceRange v s e

/-- `impl Index<RangeFrom<usize>>`: `&buf[start..*len]` on `Stack` — the
one indexing impl that clamps to the logical length — and `&v[start..]` on
`Heap`. -/
def indexRangeFrom {α : Type} : LSV α → Nat → Option (List α)
  | .Stack buf l, s => sliceRange buf s l
  | .Heap v, s => sliceRange v s v.length

/-- Well-formed values of `LocalStorageVec<T, N>` as produced by the API:
the inline buffer physically has `N` slots and the logical length never
exceeds it. -/
def wf {α : Type} (N : Nat) : LSV α → Prop
  | .Stack buf l => buf.length = N ∧ l ≤ N
  | .Heap _ => True

/-- `vs.foldl push s`: the state after pushing the values `vs` in order. -/
def pushSeq {α : Type} (N : Nat) (s : LSV α) (vs : List α) : LSV α :=
  vs.foldl (fun t v => push N v t) s

/-- For well-formed states the visible sequence has exactly `len` elements. -/
theorem length_as_ref {α : Type} (N : Nat) (s : LSV α) (h : wf N s) :
    (as_ref s).length = len s := by
  cases s with
  | Stack buf l =>
      obtain ⟨hb, hl⟩ := h
      simp [as_ref, len, List.length_take]
      omega
  | Heap v => rfl

/-- `push` preserves well-formedness. -/
theorem push_wf {α : Type} (N : Nat) (v : α) (s : LSV α) (h : wf N s) :
    wf N (push N v s) := by
  cases s with
  | Stack buf l =>
      obtain ⟨hb, hl⟩ := h
      by_cases hlt : l < N
      · simpa [push, hlt, wf, List.length_set] using ⟨hb, by omega⟩
      · simp [push, hlt, wf]
  | Heap v0 => simp [push, wf]

/-- `push` appends the pushed value to the visible sequence. -/
theorem push_as_ref {α : Type} (N : Nat) (v : α) (s : LSV α) (h : wf N s) :
    as_ref (push N v s) = as_ref s ++ [v] := by
  cases s with
  | Stack buf l =>
      obtain ⟨hb, hl⟩ := h
      by_cases hlt : l < N
      · simp only [push, hlt, if_pos, as_ref]
        rw [List.take_succ, List.set_take,
          List.set_eq_of_length_le (by rw [List.length_take]; omega),
          List.getElem?_set_self (by omega)]
        rfl
      · have hlN : l = N := by omega
        simp only [push, hlt, if_neg, as_ref, not_false_iff]
        subst hlN
        rw [← hb, List.take_length]
  | Heap v0 => rfl

/-- `push` increments the logical length. -/
theorem push_len {α : Type} (N : Nat) (v : α) (s : LSV α) (h : wf N s) :
    len (push N v s) = len s + 1 := by
  cases s with
  | Stack buf l =>
      obtain ⟨hb, hl⟩ := h
      by_cases hlt : l < N
      · simp [push, hlt, len]
      · have hlN : l = N := by omega
        simp [push, hlt, len, hb, hlN]
  | Heap v0 => simp [push, len]

/-- After a `push` the container is inline iff it was inline and the new
length still fits. -/
theorem push_isStack {α : Type} (N : Nat) (v : α) (s : LSV α) (h : wf N s) :
    (isStack (push N v s) = true ↔ (isStack s = true ∧ len s + 1 ≤ N)) := by
  cases s with
  | Stack buf l =>
      obtain ⟨hb, hl⟩ := h
      by_cases hlt : l < N
      · simp [push, hlt, isStack, len]
        omega
      · simp [push, hlt, isStack, len]
        omega
  | Heap v0 => simp [push, isStack, len]

/-- The state after a sequence of pushes, relative to the starting state:
well-formedness is preserved, the visible sequence grows by the pushed
values in order, the length grows by their count, and the result is inline
iff the start was inline and the final length fits. -/
theorem pushSeq_spec {α : Type} (N : Nat) (vs : List α) :
    ∀ (s : LSV α), wf N s →
      wf N (pushSeq N s vs) ∧
      as_ref (pushSeq N s vs) = as_ref s ++ vs ∧
      len (pushSeq N s vs) = len s + vs.length ∧
      (isStack (pushSeq N s vs) = true ↔
        (isStack s = true ∧ len s + vs.length ≤ N)) := by
  induction vs with
  | nil =>
      intro s hs
      have h0 : pushSeq N s [] = s := rfl
      rw [h0]
      refine ⟨hs, by simp, by simp, ?_⟩
      cases s with
      | Stack buf l => simpa [isStack, len] using hs.2
      | Heap v => simp [isStack]
  | cons v rest ih =>
      intro s hs
      have hstep : pushSeq N s (v :: rest) = pushSeq N (push N v s) rest := rfl
      obtain ⟨ih1, ih2, ih3, ih4⟩ := ih (push N v s) (push_wf N v s hs)
      refine ⟨hstep ▸ ih1, ?_, ?_, ?_⟩
      · rw [hstep, ih2, push_as_ref N v s hs, List.append_assoc]
        rfl
      · rw [hstep, ih3, push_len N v s hs, List.length_cons]
        omega
      · rw [hstep, ih4, push_isStack N v s hs, push_len N v s hs, List.length_cons]
        constructor
        · rintro ⟨⟨h1, h2⟩, h3⟩; exact ⟨h1, by omega⟩
        · rintro ⟨h1, h2⟩; exact ⟨⟨h1, by omega⟩, by omega⟩

/-- The iterator-filling trick on an exhausted iterator yields all
defaults. -/
theorem fillFromIter_nil {α : Type} (dflt : α) :
    ∀ (m : Nat), fillFromIter dflt m [] = List.replicate m dflt
  | 0 => rfl
  | m + 1 => by
      simp [fillFromIter, fillFromIter_nil dflt m, List.replicate_succ]

/-- When the source array fits, the filled buffer is the array followed by
default padding. -/
theorem fillFromIter_eq {α : Type} (dflt : α) :
    ∀ (arr : List α) (m : Nat), arr.length ≤ m →
      fillFromIter dflt m arr = arr ++ List.replicate (m - arr.length) dflt
  | [], m, _ => by simp [fillFromIter_nil]
  | x :: xs, 0, h => by simp at h
  | x :: xs, m + 1, h => by
      simp only [fillFromIter, List.cons_append, List.length_cons]
      rw [fillFromIter_eq dflt xs m (by simpa using h)]
      simp [Nat.succ_sub_succ]

/-- C6: confirmed.  `From<[T; K]>` into capacity `M`: when the input fits
(`K ≤ M`) the result is `Stack` with the input in the leading slots, the
remaining `M − K` slots default-initialized, and `len = K`; otherwise it
is `Heap` holding exactly the input.  In both cases the construction
total-functionally succeeds, `as_ref()` equals the input in order, and
`len()` equals `K`; the variant is inline exactly when `K ≤ M`. -/
theorem C6_from_array_spec {α : Type} (M : Nat) (dflt : α) (arr : List α) :
    fromArray M dflt arr =
      (if arr.length ≤ M
        then .Stack (arr ++ List.replicate (M - arr.length) dflt) arr.length
        else .Heap arr) ∧
    as_ref (fromArray M dflt arr) = arr ∧
    len (fromArray M dflt arr) = arr.length ∧
    (isStack (fromArray M dflt arr) = true ↔ arr.length ≤ M) := by
  by_cases h : arr.length ≤ M
  · refine ⟨by simp [fromArray, h, fillFromIter_eq dflt arr M h], ?_, ?_, ?_⟩
    · simp only [fromArray, h, if_pos, as_ref, fillFromIter_eq dflt arr M h]
      exact List.take_left arr _
    · simp [fromArray, h, len]
    · simp [fromArray, h, isStack]
  · exact ⟨by simp [fromArray, h], by simp [fromArray, h, as_ref],
      by simp [fromArray, h, len], by simp [fromArray, h, isStack]⟩

/-- C7: confirmed.  Starting from the empty container of capacity `N`,
after pushing `vs` the length equals the number of pushes, the visible
sequence is exactly the pushed values in push order (also across the
inline-to-spilled transition), and the container is inline iff the count
fits in `N`, spilled otherwise. -/
theorem C7_push_sequence_spec {α : Type} (N : Nat) (dflt : α) (vs : List α) :
    as_ref (pushSeq N (new N dflt) vs) = vs ∧
    len (pushSeq N (new N dflt) vs) = vs.length ∧
    (isStack (pushSeq N (new N dflt) vs) = true ↔ vs.length ≤ N) := by
  have hwf : wf N (new N dflt) := by
    simp [new, wf, List.length_replicate]
  obtain ⟨_, h2, h3, h4⟩ := pushSeq_spec N vs (new N dflt) hwf
  have hempty : as_ref (new N dflt) = [] := rfl
  have hlen0 : len (new N dflt) = 0 := rfl
  refine ⟨by simpa [hempty] using h2, by simpa [hlen0] using h3, ?_⟩
  rw [h4, hlen0]
  simp [new, isStack]

/-- The mutating operations of the container's API. -/
inductive Op (α : Type) where
  | push : α → Op α
  | pop : Op α
  | insert : Nat → α → Op α
  | remove : Nat → Op α
  | clear : Op α

/-- Apply one API operation, keeping the receiver's final state whether
the call completed normally or panicked (a panicking call still leaves
the `&mut self` receiver in some state). -/
def applyOp {α : Type} (N : Nat) (s : LSV α) : Op α → LSV α
  | .push v => push N v s
  | .pop => (pop s).2
  | .insert i v =>
      match insert N i v s with
      | .ok t => t
      | .error t => t
  | .remove i =>
      match remove i s with
      | .ok t => t.2
      | .error t => t
  | .clear => clear s

/-- Every single API operation maps a spilled container to a spilled
container. -/
theorem applyOp_isHeap {α : Type} (N : Nat) (s : LSV α) (o : Op α)
    (h : isHeap s = true) : isHeap (applyOp N s o) = true := by
  cases s with
  | Stack buf l => simp [isHeap] at h
  | Heap v =>
      cases o with
      | push w => simp [applyOp, push, isHeap]
      | pop => simp [applyOp, pop, isHeap]
      | insert i w =>
          rcases hv : vecInsert v i w with _ | w1 <;>
            simp [applyOp, insert, hv, isHeap]
      | remove i =>
          rcases hv : vecRemove v i with _ | r <;>
            simp [applyOp, remove, hv, isHeap]
      | clear => simp [applyOp, clear, isHeap]

/-- `pop` preserves well-formedness. -/
theorem pop_wf {α : Type} (N : Nat) (s : LSV α) (h : wf N s) :
    wf N (pop s).2 := by
  cases s with
  | Stack buf l =>
      obtain ⟨hb, hl⟩ := h
      by_cases h0 : l = 0
      · simp [pop, h0, wf, hb]
      · have hstep : (pop (.Stack buf l : LSV α)).2 = .Stack buf (l - 1) := by
          simp [pop, h0]
        rw [hstep]
        exact ⟨hb, by omega⟩
  | Heap v => simp [pop, wf]

/-- On a nonempty well-formed container, `pop` returns the last visible
element, drops it from the visible sequence, and decrements the length. -/
theorem pop_of_len_pos {α : Type} (N : Nat) (s : LSV α) (h : wf N s)
    (hpos : 0 < len s) :
    (pop s).1 = (as_ref s).getLast? ∧
    as_ref (pop s).2 = (as_ref s).dropLast ∧
    len (pop s).2 = len s - 1 := by
  cases s with
  | Stack buf l =>
      obtain ⟨hb, hl⟩ := h
      have h0 : l ≠ 0 := by simp [len] at hpos; omega
      have e1 : pop (.Stack buf l : LSV α) = (buf.get? (l - 1), .Stack buf (l - 1)) := by
        simp [pop, h0]
      rw [e1]
      refine ⟨?_, ?_, rfl⟩
      · show buf.get? (l - 1) = (buf.take l).getLast?
        rw [List.getLast?_take, if_neg h0, List.get?_eq_getElem?,
          List.getElem?_eq_getElem (show l - 1 < buf.length by omega)]
        rfl
      · show buf.take (l - 1) = (buf.take l).dropLast
        rw [List.dropLast_eq_take, List.length_take, List.take_take]
        congr 1
        omega
  | Heap v =>
      exact ⟨rfl, rfl, by simp [pop, len]⟩

/-- On an empty container `pop` signals absence and changes nothing. -/
theorem pop_of_len_zero {α : Type} (N : Nat) (s : LSV α) (h : wf N s)
    (h0 : len s = 0) : pop s = (none, s) := by
  cases s with
  | Stack buf l =>
      have : l = 0 := h0
      simp [pop, this]
  | Heap v =>
      have hv : v = [] := List.length_eq_zero.mp h0
      simp [pop, hv]

/-- `popMany k s`: the results of `k` successive `pop` calls together with
the final state. -/
def popMany {α : Type} : Nat → LSV α → List (Option α) × LSV α
  | 0, s => ([], s)
  | k + 1, s =>
      ((pop s).1 :: (popMany k (pop s).2).1, (popMany k (pop s).2).2)

/-- Popping a well-formed container as many times as its length yields
exactly its visible elements in reverse order and drains it. -/
theorem popMany_spec {α : Type} (N : Nat) :
    ∀ (k : Nat) (s : LSV α), wf N s → len s = k →
      (popMany k s).1 = ((as_ref s).reverse).map some ∧
      len (popMany k s).2 = 0 ∧ wf N (popMany k s).2 := by
  intro k
  induction k with
  | zero =>
      intro s hs h0
      have hnil : as_ref s = [] := by
        have := length_as_ref N s hs
        rw [h0] at this
        exact List.length_eq_zero.mp this
      exact ⟨by simp [popMany, hnil], by simpa [popMany] using h0, hs⟩
  | succ k ih =>
      intro s hs hk
      have hpos : 0 < len s := by omega
      obtain ⟨h1, h2, h3⟩ := pop_of_len_pos N s hs hpos
      have hwf2 : wf N (pop s).2 := pop_wf N s hs
      have hk2 : len (pop s).2 = k := by omega
      obtain ⟨ih1, ih2, ih3⟩ := ih (pop s).2 hwf2 hk2
      have hne : as_ref s ≠ [] := by
        have := length_as_ref N s hs
        intro hc
        rw [hc] at this
        simp at this
        omega
      have hdecomp : (as_ref s).reverse =
          (as_ref s).getLast hne :: (as_ref s).dropLast.reverse := by
        conv_lhs => rw [← List.dropLast_append_getLast hne]
        simp [List.reverse_append]
      refine ⟨?_, ih2, ih3⟩
      show (pop s).1 :: (popMany k (pop s).2).1 = ((as_ref s).reverse).map some
      rw [hdecomp, List.map_cons, ih1, h2, h1,
        List.getLast?_eq_getLast_of_ne_nil hne]

/-- C8: confirmed.  The spill is monotonic: starting from any spilled
(`Heap`) container, no sequence of API operations — `push`, `pop`,
`insert`, `remove`, `clear`, in any order and whether they complete or
panic — ever returns the container to the inline (`Stack`) variant; in
particular `clear` followed by re-populating below capacity keeps it
spilled. -/
theorem C8_spill_monotonic {α : Type} (N : Nat) (s : LSV α) (ops : List (Op α))
    (h : isHeap s = true) :
    isHeap (ops.foldl (applyOp N) s) = true := by
  induction ops generalizing s with
  | nil => simpa using h
  | cons o rest ih =>
      exact ih (applyOp N s o) (applyOp_isHeap N s o h)

/-- Witness for C8 at a concrete input: a spilled container stays spilled
across `clear` followed by pushes below capacity. -/
theorem C8_spill_monotonic_witness :
    isHeap (([Op.clear, Op.push (2 : Int), Op.push 3]).foldl (applyOp 4)
      (.Heap [1])) = true :=
  C8_spill_monotonic 4 (.Heap [1]) [Op.clear, Op.push 2, Op.push 3] rfl

/-- C9: confirmed.  `pop` on a nonempty container removes and returns the
last logical element; on an empty container it returns `none` and leaves
the state unchanged; and pushing any values onto the empty container of
capacity `N` and then popping that many times returns them in reverse push
order, after which the next `pop` returns `none`. -/
theorem C9_pop_spec {α : Type} (N : Nat) (dflt : α) (s : LSV α) (vs : List α)
    (h : wf N s) :
    (0 < len s →
      (pop s).1 = (as_ref s).getLast? ∧ as_ref (pop s).2 = (as_ref s).dropLast) ∧
    (len s = 0 → pop s = (none, s)) ∧
    (popMany vs.length (pushSeq N (new N dflt) vs)).1 = vs.reverse.map some ∧
    (pop (popMany vs.length (pushSeq N (new N dflt) vs)).2).1 = none := by
  have hwfnew : wf N (new N dflt) := by simp [new, wf, List.length_replicate]
  obtain ⟨hw, ha, hlen, _⟩ := pushSeq_spec N vs (new N dflt) hwfnew
  have ha0 : as_ref (pushSeq N (new N dflt) vs) = vs := by
    simpa [show as_ref (new N dflt) = [] from rfl] using ha
  have hlen0 : len (pushSeq N (new N dflt) vs) = vs.length := by
    simpa [show len (new N dflt) = 0 from rfl] using hlen
  obtain ⟨hm1, hm2, hm3⟩ :=
    popMany_spec N vs.length (pushSeq N (new N dflt) vs) hw hlen0
  refine ⟨?_, pop_of_len_zero N s h, ?_, ?_⟩
  · intro hpos
    obtain ⟨p1, p2, _⟩ := pop_of_len_pos N s h hpos
    exact ⟨p1, p2⟩
  · rw [hm1, ha0]
  · rw [pop_of_len_zero N _ hm3 hm2]

/-- Witness for C9 at a concrete input: pushing `[1, 2]` onto the empty
capacity-1 container (which spills) and popping twice yields the values in
reverse push order. -/
theorem C9_pop_spec_witness :
    (popMany 2 (pushSeq 1 (new 1 (0 : Int)) [1, 2])).1 = [some 2, some 1] := by
  have h := C9_pop_spec 1 (0 : Int) (.Stack [5] 1) [1, 2] ⟨rfl, Nat.le.refl⟩
  simpa using h.2.2.1

/-- C10: confirmed.  On the inline variant, the open-ended range view
`v[start..]` is clamped to the logical length, not the capacity: for
`start ≤ len` it returns exactly the live elements at positions
`[start, len)` — never the placeholder slots at positions `≥ len` — and
for `start > len` it fails. -/
theorem C10_range_from_clamps {α : Type} (N : Nat) (buf : List α)
    (l start : Nat) (h : wf N (.Stack buf l)) :
    (start ≤ l →
      indexRangeFrom (.Stack buf l) start =
        some ((as_ref (.Stack buf l)).drop start)) ∧
    (l < start → indexRangeFrom (.Stack buf l) start = none) := by
  obtain ⟨hb, hl⟩ := h
  constructor
  · intro hs
    show sliceRange buf start l = some ((buf.take l).drop start)
    rw [sliceRange, if_pos ⟨hs, by omega⟩]
  · intro hs
    show sliceRange buf start l = none
    rw [sliceRange, if_neg (by omega)]

/-- Witness for C10 at a concrete input: on an inline container of
capacity 4 holding `[1, 2]`, the view `v[1..]` returns `[2]` and stops at
the logical length. -/
theorem C10_range_from_clamps_witness :
    indexRangeFrom (.Stack [(1 : Int), 2, 0, 0] 2) 1 = some [2] := by
  have h := C10_range_from_clamps 4 [(1 : Int), 2, 0, 0] 2 1 ⟨rfl, by omega⟩
  simpa using h.1 (by omega)

/-- C1: refuted on the code.  Inserting at index 0 into the inline
container `[1,2,3]` with capacity 4 — the spec's own example, which it
says yields `[x,1,2,3]` — panics: the backward shift loop
`for i in (index..*len).rev() { buf[i] = buf[i - 1] }` reaches `i = 0` and
computes `0usize - 1`, a subtraction overflow.  The panic leaves the
container with `len` already bumped to 4 and the tail partially shifted. -/
theorem C1_insert_at_zero_panics :
    insert 4 0 (9 : Int) (.Stack [1, 2, 3, 0] 3) = .error (.Stack [1, 1, 2, 3] 4) :=
  rfl

/-- C2: refuted on the code.  `remove` at index `3 ≥ len() = 3` on the
inline container `[0,1,2]` with capacity 4 does not signal out-of-bounds:
the bounds check `buf[index]` is against the physical capacity `N = 4`,
not the logical length, so the call succeeds, returns the placeholder
value in slot 3, decrements `len`, and shrinks `as_ref()` from `[0,1,2]`
to `[0,1]`. -/
theorem C2_remove_oob_succeeds :
    remove 3 (.Stack [(0 : Int), 1, 2, 7] 3) = .ok (7, .Stack [0, 1, 2, 7] 2) ∧
      as_ref (.Stack [(0 : Int), 1, 2, 7] 2) = [0, 1] :=
  ⟨rfl, rfl⟩

/-- C3: refuted on the code.  On the inline container `[0,1,2]` with
capacity 6 (placeholder slots hold 9), single-element indexing at 5 and
the range views `..5` and `2..5` — all of which exceed `length() = 3` —
succeed and expose placeholder slots instead of failing, because the
`Stack` arms of the `Index` impls check against the physical buffer (`N`),
not `len`. -/
theorem C3_index_oob_succeeds :
    indexUsize (.Stack [(0 : Int), 1, 2, 9, 9, 9] 3) 5 = some 9 ∧
      indexRangeTo (.Stack [(0 : Int), 1, 2, 9, 9, 9] 3) 5 = some [0, 1, 2, 9, 9] ∧
      indexRange (.Stack [(0 : Int), 1, 2, 9, 9, 9] 3) 2 5 = some [2, 9, 9] := by
  decide

/-- C4: refuted on the code.  On the empty inline container of capacity 4,
`insert(length(), v) = insert(0, v)` panics (the shift loop underflows at
`i = 0`) while `push(v)` succeeds, so the two are not equivalent on the
empty container. -/
theorem C4_insert_len_differs_from_push_when_empty :
    insert 4 0 (5 : Int) (new 4 0) = .error (.Stack [0, 0, 0, 0] 1) ∧
      push 4 (5 : Int) (new 4 0) = .Stack [5, 0, 0, 0] 1 :=
  ⟨rfl, rfl⟩

/-- C5: refuted on the code.  `insert(10, v)` on the inline container
`[1,2]` with capacity 4 performs no bounds check before mutating: it first
increments `len` to 3, and only then does the write `buf[10]` panic, so
the failed call leaves the container partially mutated — its visible
sequence `as_ref()` grows from `[1,2]` to `[1,2,0]`, exposing a
placeholder slot. -/
theorem C5_partial_mutation_on_failed_insert :
    insert 4 10 (9 : Int) (.Stack [1, 2, 0, 0] 2) = .error (.Stack [1, 2, 0, 0] 3) ∧
      as_ref ((.Stack [(1 : Int), 2, 0, 0] 3 : LSV Int)) ≠
        as_ref ((.Stack [(1 : Int), 2, 0, 0] 2 : LSV Int)) :=
  ⟨rfl, by decide⟩

end LocalStorageVecSpec
